/-
  Verification of the fPCA pipeline of the HEIG repository
  (src/heig/fpca.py) against its natural-language specification.

  The Python numerics are embedded shallowly: machine floats are modelled
  as exact rationals (ℚ) except where the code applies log/exp, where we
  use ℝ; h5py/numpy arrays become Lists; generators become Lists of
  batches; a Python exception becomes an `Option`/sum-type result.
-/
import Mathlib

namespace Heig

/-! ### image_reader (src/heig/fpca.py lines 236-260)

`image_reader(images, id_idxs)` computes
  `memory_use = n * N * 4 / 1024**3`,
  `batch_size = n` if `memory_use <= 5` else `int(n / memory_use * 5)`,
then yields `id_idxs[i : i + batch_size]` for `i in range(0, n, batch_size)`.
`range` with step 0 raises `ValueError`, modelled by `none`. -/

/-- Estimated data size `memory_use = n * N * itemsize / (1024**3)` in GiB
with `itemsize = 4` for float32, as an exact rational. -/
def memoryUse (n N : ℕ) : ℚ := (n * N * 4 : ℚ) / 1024 ^ 3

/-- The batch size of `image_reader`: `n` when `memory_use <= 5`, otherwise
`int(n / memory_use * 5)` (Python `int` truncates; the value is nonnegative,
so truncation is the floor). -/
def batchSize (n N : ℕ) : ℕ :=
  if memoryUse n N ≤ 5 then n
  else (⌊(n : ℚ) / memoryUse n N * 5⌋).toNat

/-- Slices `[idxs[i : i+b] for i in range(0, len(idxs), b)]` for a positive
step `b`, written with explicit fuel (the list length bounds the number of
batches). -/
def chunkAux (b : ℕ) : ℕ → List α → List (List α)
  | _, [] => []
  | 0, _ :: _ => []
  | fuel + 1, x :: xs => ((x :: xs).take b) :: chunkAux b fuel ((x :: xs).drop b)

/-- The batches yielded by `image_reader` on a subject-index list `idxs`
with `N` grid points; `none` models the `ValueError` Python raises from
`range(0, n, 0)` when the computed batch size is zero. -/
def imageReader (idxs : List α) (N : ℕ) : Option (List (List α)) :=
  let b := batchSize idxs.length N
  if b = 0 then none
  else some (chunkAux b idxs.length idxs)

theorem chunkAux_flatten (b : ℕ) (hb : 0 < b) :
    ∀ (fuel : ℕ) (xs : List α), xs.length ≤ fuel →
      (chunkAux b fuel xs).flatten = xs := by
  intro fuel
  induction fuel with
  | zero =>
    intro xs hxs
    cases xs with
    | nil => rfl
    | cons x xs => simp at hxs
  | succ n ih =>
    intro xs hxs
    cases xs with
    | nil => rfl
    | cons x xs =>
      cases b with
      | zero => exact absurd hb (lt_irrefl 0)
      | succ b =>
        have hlen : ((x :: xs).drop (b + 1)).length ≤ n := by
          simp only [List.length_drop, List.length_cons]
          simp only [List.length_cons] at hxs
          omega
        simp only [chunkAux, List.flatten_cons]
        rw [ih _ hlen]
        exact List.take_append_drop _ _

theorem chunkAux_ne_nil (b : ℕ) (hb : 0 < b) :
    ∀ (fuel : ℕ) (xs : List α) (c : List α), c ∈ chunkAux b fuel xs → c ≠ [] := by
  intro fuel
  induction fuel with
  | zero =>
    intro xs c hc
    cases xs <;> simp [chunkAux] at hc
  | succ n ih =>
    intro xs c hc
    cases xs with
    | nil => simp [chunkAux] at hc
    | cons x xs =>
      cases b with
      | zero => exact absurd hb (lt_irrefl 0)
      | succ b =>
        simp only [chunkAux, List.mem_cons] at hc
        rcases hc with hc | hc
        · subst hc; simp
        · exact ih _ _ hc

theorem image_reader_partition (idxs : List ℕ) (N : ℕ)
    (hb : 0 < batchSize idxs.length N) :
    ∃ chunks, imageReader idxs N = some chunks ∧
      chunks.flatten = idxs ∧ ∀ c ∈ chunks, c ≠ [] := by
  refine ⟨chunkAux (batchSize idxs.length N) idxs.length idxs, ?_, ?_, ?_⟩
  · simp [imageReader, Nat.pos_iff_ne_zero.mp hb]
  · exact chunkAux_flatten _ hb _ _ le_rfl
  · exact chunkAux_ne_nil _ hb _ _

/-- C5: for subject count n and grid-point count N, image_reader computes
batch size n when the data size n·N·4 bytes is within the 5 GiB ceiling and
int(n / memory_use * 5) otherwise, and (when that batch size is positive)
yields consecutive in-order non-overlapping slices covering the row indices
[0, n) exactly once, none of them empty.  Amended: when the computed batch
size is zero (memory_use > 5 and N > 5·2^30/4), Python range(0, n, 0)
raises ValueError and no slices are yielded, modelled by the none result. -/
theorem C5_image_reader (n N : ℕ) (hb : 0 < batchSize n N) :
    (memoryUse n N ≤ 5 → batchSize n N = n) ∧
    (¬ memoryUse n N ≤ 5 →
      batchSize n N = (⌊(n : ℚ) / memoryUse n N * 5⌋).toNat) ∧
    ∃ chunks, imageReader (List.range n) N = some chunks ∧
      chunks.flatten = List.range n ∧ ∀ c ∈ chunks, c ≠ [] := by
  refine ⟨fun h => by simp [batchSize, h], fun h => by simp [batchSize, h], ?_⟩
  have h := image_reader_partition (List.range n) N (by simpa using hb)
  simpa using h

/-- C5 witness: a concrete run with n = 3 subjects and N = 5 grid points. -/
theorem C5_image_reader_witness :
    0 < batchSize 3 5 ∧
    ((memoryUse 3 5 ≤ 5 → batchSize 3 5 = 3) ∧
      (¬ memoryUse 3 5 ≤ 5 →
        batchSize 3 5 = (⌊(3 : ℚ) / memoryUse 3 5 * 5⌋).toNat) ∧
      ∃ chunks, imageReader (List.range 3) 5 = some chunks ∧
        chunks.flatten = List.range 3 ∧ ∀ c ∈ chunks, c ≠ []) := by
  have hb : 0 < batchSize 3 5 := by norm_num [batchSize, memoryUse]
  exact ⟨hb, C5_image_reader 3 5 hb⟩

/-- C5 counterexample: with n = 1 subject and N = 1342177281 grid points the
estimated size exceeds 5 GiB and int(n / memory_use * 5) = 0, so image_reader
raises (yields nothing) instead of covering [0, 1). -/
theorem C5_counterexample :
    batchSize 1 1342177281 = 0 ∧
    imageReader (List.range 1) 1342177281 = none := by
  have h0 : batchSize 1 1342177281 = 0 := by norm_num [batchSize, memoryUse]
  exact ⟨h0, by simp [imageReader, h0]⟩

/-! ### KernelSmooth.gcv (src/heig/fpca.py lines 53-112)

Each bandwidth candidate either gets rejected by the smoother (`None`,
scored `np.Inf`) or produces a finite GCV value; a value of exactly 0 is
replaced by `np.nan`.  The winner is `np.nanargmin(score)`; if its score is
infinite a ValueError instructing `--bw-opt` is raised; `np.nanargmin`
itself raises a different ValueError when every entry is NaN.  A candidate
is modelled as `Option ℚ`: `none` for a rejected bandwidth, `some v` for a
computed score value `v`. -/

/-- Score classification used in the gcv loop: a finite value, np.Inf, or
np.nan. -/
inductive FScore where
  | fin (v : ℚ)
  | inf
  | nan
deriving DecidableEq

/-- Entry written into the score array for one candidate: `np.Inf` for a
rejected bandwidth, NaN for an exactly-zero score, the value otherwise
(lines 76-92). -/
def scoreOf : Option ℚ → FScore
  | none => .inf
  | some v => if v = 0 then .nan else .fin v

/-- Strict comparison on scores as NumPy compares them, NaN never less. -/
def fsBlt : FScore → FScore → Bool
  | .fin a, .fin b => a < b
  | .fin _, .inf => true
  | _, _ => false

/-- Core of np.nanargmin: scanning the list, returning index and value of
the smallest non-NaN entry (first index on ties), none if all NaN. -/
def nanargminAux : ℕ → List FScore → Option (ℕ × FScore)
  | _, [] => none
  | i, s :: rest =>
    if s = .nan then nanargminAux (i + 1) rest
    else
      match nanargminAux (i + 1) rest with
      | none => some (i, s)
      | some (j, t) => if fsBlt t s then some (j, t) else some (i, s)

/-- Semantics of np.nanargmin: the first index attaining the minimum over
the non-NaN entries; none models the ValueError numpy raises when every
entry is NaN. -/
def nanargmin (scores : List FScore) : Option ℕ :=
  (nanargminAux 0 scores).map Prod.fst

/-- One step of the running-minimum bookkeeping of the gcv loop (lines
85-87): a strictly smaller finite score replaces the incumbent and its
weight matrix is persisted; NaN and Inf never compare below `min_score`. -/
def savedStep (acc : Option (ℕ × ℚ)) (i : ℕ) (s : FScore) : Option (ℕ × ℚ) :=
  match s, acc with
  | .fin v, none => some (i, v)
  | .fin v, some (j, m) => if v < m then some (i, v) else some (j, m)
  | _, acc => acc

/-- Index of the candidate whose weight matrix is on disk after the loop:
the left-to-right fold of `savedStep` over the scores. -/
def gcvSavedAux : ℕ → Option (ℕ × ℚ) → List FScore → Option (ℕ × ℚ)
  | _, acc, [] => acc
  | i, acc, s :: rest => gcvSavedAux (i + 1) (savedStep acc i s) rest

/-- Candidate index whose weights were last persisted by the sweep. -/
def gcvSaved (scores : List FScore) : Option ℕ :=
  (gcvSavedAux 0 none scores).map Prod.fst

/-- Score array of the sweep over a candidate list. -/
def gcvScores (cands : List (Option ℚ)) : List FScore := cands.map scoreOf

/-- Result of KernelSmooth.gcv as observed by the caller. -/
inductive GcvResult where
  /-- returns the weights persisted for candidate `i` -/
  | ok (i : ℕ)
  /-- ValueError: the optimal bandwidth is invalid, try `--bw-opt` (line 105) -/
  | errBwOpt
  /-- ValueError raised inside np.nanargmin when every score is NaN (line 94) -/
  | errAllNaN
deriving DecidableEq

/-- Control flow of gcv lines 94-112 on the score array. -/
def gcvOutcome (cands : List (Option ℚ)) : GcvResult :=
  match nanargmin (gcvScores cands) with
  | none => .errAllNaN
  | some i =>
    if (gcvScores cands).getD i .nan = .inf then .errBwOpt else .ok i

theorem fsBlt_irrefl (s : FScore) : fsBlt s s = false := by
  cases s <;> simp [fsBlt]

theorem fsBlt_asymm {s t : FScore} (h : fsBlt s t = true) : fsBlt t s = false := by
  cases s <;> cases t <;> simp_all [fsBlt]
  linarith

theorem fsBlt_neg_trans {a b c : FScore} (hab : fsBlt a b = false)
    (hbc : fsBlt b c = false) (ha : a ≠ .nan) (hb : b ≠ .nan) :
    fsBlt a c = false := by
  cases a <;> cases b <;> cases c <;> simp_all [fsBlt]
  linarith

theorem nanargminAux_eq_none : ∀ (l : List FScore) (i : ℕ),
    nanargminAux i l = none ↔ ∀ s ∈ l, s = .nan := by
  intro l
  induction l with
  | nil => simp [nanargminAux]
  | cons s rest ih =>
    intro i
    by_cases hs : s = .nan
    · rw [nanargminAux, if_pos hs, ih (i + 1)]
      subst hs
      simp only [List.mem_cons]
      constructor
      · rintro h x (rfl | hx)
        · rfl
        · exact h x hx
      · intro h x hx
        exact h x (Or.inr hx)
    · rw [nanargminAux, if_neg hs]
      constructor
      · intro h
        exfalso
        rcases hrest : nanargminAux (i + 1) rest with - | ⟨j, t⟩ <;>
          rw [hrest] at h
        · exact Option.noConfusion h
        · by_cases hb : fsBlt t s = true <;> simp [hb] at h
      · intro h
        exact absurd (h s (List.mem_cons_self s rest)) hs

theorem nanargminAux_spec : ∀ (l : List FScore) (i j : ℕ) (t : FScore),
    nanargminAux i l = some (j, t) →
      i ≤ j ∧ j - i < l.length ∧ l.getD (j - i) .nan = t ∧ t ≠ .nan ∧
      (∀ p, p < l.length → l.getD p .nan ≠ .nan →
        fsBlt (l.getD p .nan) t = false) ∧
      (∀ p, p < j - i → l.getD p .nan ≠ .nan →
        fsBlt t (l.getD p .nan) = true) := by
  intro l
  induction l with
  | nil => intro i j t h; exact Option.noConfusion h
  | cons s rest ih =>
    intro i j t h
    by_cases hs : s = .nan
    · rw [nanargminAux, if_pos hs] at h
      obtain ⟨hij, hlen, hget, hnan, hmin, hfirst⟩ := ih (i + 1) j t h
      have hij' : i ≤ j := le_trans (Nat.le_succ i) hij
      have hsub : j - i = (j - (i + 1)) + 1 := by omega
      refine ⟨hij', by simp only [List.length_cons]; omega, ?_, hnan, ?_, ?_⟩
      · rw [hsub]; simpa using hget
      · intro p hp hpn
        cases p with
        | zero => rw [List.getD_cons_zero] at hpn; exact absurd hs hpn
        | succ q =>
          rw [List.getD_cons_succ] at hpn ⊢
          exact hmin q (by simpa using Nat.lt_of_succ_lt_succ hp) hpn
      · intro p hp hpn
        cases p with
        | zero => rw [List.getD_cons_zero] at hpn; exact absurd hs hpn
        | succ q =>
          rw [List.getD_cons_succ] at hpn ⊢
          exact hfirst q (by omega) hpn
    · rw [nanargminAux, if_neg hs] at h
      rcases hrest : nanargminAux (i + 1) rest with - | ⟨j', t'⟩ <;>
        rw [hrest] at h
      · -- rest is all NaN, the head wins
        have hall : ∀ x ∈ rest, x = .nan :=
          (nanargminAux_eq_none rest (i + 1)).mp hrest
        have hj : j = i ∧ t = s := by
          simp only [Option.some.injEq, Prod.mk.injEq] at h
          exact ⟨h.1.symm, h.2.symm⟩
        obtain ⟨rfl, rfl⟩ := hj
        refine ⟨le_rfl, by simp, by simp, hs, ?_, ?_⟩
        · intro p hp hpn
          cases p with
          | zero => simpa using fsBlt_irrefl t
          | succ q =>
            exfalso
            apply hpn
            rw [List.getD_cons_succ]
            have hq : q < rest.length := by simpa using Nat.lt_of_succ_lt_succ hp
            rw [List.getD_eq_getElem rest _ hq]
            exact hall _ (List.getElem_mem hq)
        · intro p hp
          exact absurd hp (by omega)
      · obtain ⟨hij', hlen', hget', hnan', hmin', hfirst'⟩ := ih (i + 1) j' t' hrest
        replace h : (if fsBlt t' s = true then some (j', t') else some (i, s)) =
            some (j, t) := h
        by_cases hb : fsBlt t' s = true
        · rw [if_pos hb] at h
          have hj : j = j' ∧ t = t' := by
            simp only [Option.some.injEq, Prod.mk.injEq] at h
            exact ⟨h.1.symm, h.2.symm⟩
          obtain ⟨rfl, rfl⟩ := hj
          have hij : i ≤ j := le_trans (Nat.le_succ i) hij'
          have hsub : j - i = (j - (i + 1)) + 1 := by omega
          refine ⟨hij, by simp only [List.length_cons]; omega, ?_, hnan', ?_, ?_⟩
          · rw [hsub]; simpa using hget'
          · intro p hp hpn
            cases p with
            | zero =>
              rw [List.getD_cons_zero] at hpn ⊢
              exact fsBlt_asymm hb
            | succ q =>
              rw [List.getD_cons_succ] at hpn ⊢
              exact hmin' q (by simpa using Nat.lt_of_succ_lt_succ hp) hpn
          · intro p hp hpn
            cases p with
            | zero => rw [List.getD_cons_zero] at hpn ⊢; exact hb
            | succ q =>
              rw [List.getD_cons_succ] at hpn ⊢
              exact hfirst' q (by omega) hpn
        · rw [if_neg hb] at h
          have hj : j = i ∧ t = s := by
            simp only [Option.some.injEq, Prod.mk.injEq] at h
            exact ⟨h.1.symm, h.2.symm⟩
          obtain ⟨rfl, rfl⟩ := hj
          have hbf : fsBlt t' t = false := by
            revert hb
            cases fsBlt t' t <;> simp
          refine ⟨le_rfl, by simp, by simp, hs, ?_, ?_⟩
          · intro p hp hpn
            cases p with
            | zero => simpa using fsBlt_irrefl t
            | succ q =>
              rw [List.getD_cons_succ] at hpn ⊢
              have hq : q < rest.length := by simpa using Nat.lt_of_succ_lt_succ hp
              exact fsBlt_neg_trans (hmin' q hq hpn) hbf hpn hnan'
          · intro p hp
            exact absurd hp (by omega)

theorem gcvSavedAux_append (l : List FScore) (s : FScore) :
    ∀ (i : ℕ) (acc : Option (ℕ × ℚ)),
      gcvSavedAux i acc (l ++ [s]) = savedStep (gcvSavedAux i acc l) (i + l.length) s := by
  induction l with
  | nil => intro i acc; simp [gcvSavedAux]
  | cons x xs ih =>
    intro i acc
    rw [List.cons_append, gcvSavedAux, gcvSavedAux, ih]
    congr 1
    simp only [List.length_cons]
    omega

theorem gcvSavedAux_spec (l : List FScore) :
    (gcvSavedAux 0 none l = none →
      ∀ p, p < l.length → ∀ w, l.getD p .nan ≠ .fin w) ∧
    (∀ j m, gcvSavedAux 0 none l = some (j, m) →
      j < l.length ∧ l.getD j .nan = .fin m ∧
      (∀ p w, p < l.length → l.getD p .nan = .fin w → m ≤ w) ∧
      (∀ p w, p < j → l.getD p .nan = .fin w → m < w)) := by
  induction l using List.reverseRecOn with
  | nil =>
    constructor
    · intro _ p hp
      exact absurd hp (by simp)
    · intro j m h
      exact Option.noConfusion h
  | append_singleton l s ih =>
    obtain ⟨ihnone, ihsome⟩ := ih
    rw [gcvSavedAux_append]
    rcases hprev : gcvSavedAux 0 none l with - | ⟨j, m⟩
    · -- no finite score seen in l
      cases s with
      | fin v =>
        constructor
        · intro h; exact Option.noConfusion h
        · intro j' m' h
          simp only [savedStep, Option.some.injEq, Prod.mk.injEq, Nat.zero_add] at h
          obtain ⟨rfl, rfl⟩ := h
          refine ⟨by simp, ?_, ?_, ?_⟩
          · rw [List.getD_append_right l [FScore.fin v] _ _ le_rfl, Nat.sub_self]
            rfl
          · intro p w hp hw
            rcases Nat.lt_or_ge p l.length with hpl | hpl
            · rw [List.getD_append l [FScore.fin v] _ _ hpl] at hw
              exact absurd hw (ihnone hprev p hpl w)
            · have hpe : p = l.length := by
                simp only [List.length_append, List.length_singleton] at hp
                omega
              subst hpe
              rw [List.getD_append_right l [FScore.fin v] _ _ le_rfl, Nat.sub_self] at hw
              cases hw
              exact le_rfl
          · intro p w hp hw
            rw [List.getD_append l [FScore.fin v] _ _ hp] at hw
            exact absurd hw (ihnone hprev p hp w)
      | inf =>
        constructor
        · intro _ p hp w
          rcases Nat.lt_or_ge p l.length with hpl | hpl
          · rw [List.getD_append l [FScore.inf] _ _ hpl]
            exact ihnone hprev p hpl w
          · have hpe : p = l.length := by
              simp only [List.length_append, List.length_singleton] at hp
              omega
            subst hpe
            rw [List.getD_append_right l [FScore.inf] _ _ le_rfl, Nat.sub_self]
            intro hc
            exact FScore.noConfusion hc
        · intro j' m' h
          exact Option.noConfusion h
      | nan =>
        constructor
        · intro _ p hp w
          rcases Nat.lt_or_ge p l.length with hpl | hpl
          · rw [List.getD_append l [FScore.nan] _ _ hpl]
            exact ihnone hprev p hpl w
          · have hpe : p = l.length := by
              simp only [List.length_append, List.length_singleton] at hp
              omega
            subst hpe
            rw [List.getD_append_right l [FScore.nan] _ _ le_rfl, Nat.sub_self]
            intro hc
            exact FScore.noConfusion hc
        · intro j' m' h
          exact Option.noConfusion h
    · -- incumbent minimum (j, m) from l
      obtain ⟨hjl, hgetj, hminl, hfirstl⟩ := ihsome j m hprev
      have hgoal : ∀ j' m',
          (savedStep (some (j, m)) (0 + l.length) s = some (j', m')) →
          j' < (l ++ [s]).length ∧ (l ++ [s]).getD j' .nan = .fin m' ∧
          (∀ p w, p < (l ++ [s]).length → (l ++ [s]).getD p .nan = .fin w → m' ≤ w) ∧
          (∀ p w, p < j' → (l ++ [s]).getD p .nan = .fin w → m' < w) := by
        intro j' m' h
        cases s with
        | fin v =>
          simp only [savedStep, Nat.zero_add] at h
          by_cases hv : v < m
          · rw [if_pos hv] at h
            simp only [Option.some.injEq, Prod.mk.injEq] at h
            obtain ⟨rfl, rfl⟩ := h
            refine ⟨by simp, ?_, ?_, ?_⟩
            · rw [List.getD_append_right l _ _ _ le_rfl, Nat.sub_self]
              rfl
            · intro p w hp hw
              rcases Nat.lt_or_ge p l.length with hpl | hpl
              · rw [List.getD_append l _ _ _ hpl] at hw
                exact le_of_lt (lt_of_lt_of_le hv (hminl p w hpl hw))
              · have hpe : p = l.length := by
                  simp only [List.length_append, List.length_singleton] at hp
                  omega
                subst hpe
                rw [List.getD_append_right l _ _ _ le_rfl, Nat.sub_self] at hw
                cases hw
                exact le_rfl
            · intro p w hp hw
              rw [List.getD_append l _ _ _ hp] at hw
              exact lt_of_lt_of_le hv (hminl p w hp hw)
          · rw [if_neg hv] at h
            simp only [Option.some.injEq, Prod.mk.injEq] at h
            obtain ⟨rfl, rfl⟩ := h
            refine ⟨by simp only [List.length_append, List.length_singleton]; omega,
              ?_, ?_, ?_⟩
            · rw [List.getD_append l _ _ _ hjl]
              exact hgetj
            · intro p w hp hw
              rcases Nat.lt_or_ge p l.length with hpl | hpl
              · rw [List.getD_append l _ _ _ hpl] at hw
                exact hminl p w hpl hw
              · have hpe : p = l.length := by
                  simp only [List.length_append, List.length_singleton] at hp
                  omega
                subst hpe
                rw [List.getD_append_right l _ _ _ le_rfl, Nat.sub_self] at hw
                cases hw
                exact le_of_not_lt hv
            · intro p w hp hw
              rw [List.getD_append l _ _ _ (lt_trans hp hjl)] at hw
              exact hfirstl p w hp hw
        | inf =>
          simp only [savedStep, Option.some.injEq, Prod.mk.injEq] at h
          obtain ⟨rfl, rfl⟩ := h
          refine ⟨by simp only [List.length_append, List.length_singleton]; omega,
            ?_, ?_, ?_⟩
          · rw [List.getD_append l _ _ _ hjl]
            exact hgetj
          · intro p w hp hw
            rcases Nat.lt_or_ge p l.length with hpl | hpl
            · rw [List.getD_append l _ _ _ hpl] at hw
              exact hminl p w hpl hw
            · have hpe : p = l.length := by
                simp only [List.length_append, List.length_singleton] at hp
                omega
              subst hpe
              rw [List.getD_append_right l _ _ _ le_rfl, Nat.sub_self] at hw
              exact FScore.noConfusion hw
          · intro p w hp hw
            rw [List.getD_append l _ _ _ (lt_trans hp hjl)] at hw
            exact hfirstl p w hp hw
        | nan =>
          simp only [savedStep, Option.some.injEq, Prod.mk.injEq] at h
          obtain ⟨rfl, rfl⟩ := h
          refine ⟨by simp only [List.length_append, List.length_singleton]; omega,
            ?_, ?_, ?_⟩
          · rw [List.getD_append l _ _ _ hjl]
            exact hgetj
          · intro p w hp hw
            rcases Nat.lt_or_ge p l.length with hpl | hpl
            · rw [List.getD_append l _ _ _ hpl] at hw
              exact hminl p w hpl hw
            · have hpe : p = l.length := by
                simp only [List.length_append, List.length_singleton] at hp
                omega
              subst hpe
              rw [List.getD_append_right l _ _ _ le_rfl, Nat.sub_self] at hw
              exact FScore.noConfusion hw
          · intro p w hp hw
            rw [List.getD_append l _ _ _ (lt_trans hp hjl)] at hw
            exact hfirstl p w hp hw
      constructor
      · intro h
        exfalso
        cases s with
        | fin v =>
          simp only [savedStep, Nat.zero_add] at h
          by_cases hv : v < m
          · rw [if_pos hv] at h; exact Option.noConfusion h
          · rw [if_neg hv] at h; exact Option.noConfusion h
        | inf => exact Option.noConfusion h
        | nan => exact Option.noConfusion h
      · exact hgoal

theorem scoreOf_eq_nan {c : Option ℚ} : scoreOf c = .nan ↔ c = some 0 := by
  cases c with
  | none => simp [scoreOf]
  | some v =>
    by_cases hv : v = 0 <;> simp [scoreOf, hv]

theorem scoreOf_eq_inf {c : Option ℚ} : scoreOf c = .inf ↔ c = none := by
  cases c with
  | none => simp [scoreOf]
  | some v =>
    by_cases hv : v = 0 <;> simp [scoreOf, hv]

theorem scoreOf_eq_fin {c : Option ℚ} {v : ℚ} :
    scoreOf c = .fin v ↔ c = some v ∧ v ≠ 0 := by
  cases c with
  | none => simp [scoreOf]
  | some w =>
    by_cases hw : w = 0
    · subst hw
      simp only [scoreOf, if_pos rfl]
      constructor
      · intro h; exact FScore.noConfusion h
      · rintro ⟨h, hv⟩
        rw [Option.some.injEq] at h
        exact absurd h.symm hv
    · simp only [scoreOf, if_neg hw, Option.some.injEq, FScore.fin.injEq]
      constructor
      · rintro rfl; exact ⟨rfl, hw⟩
      · rintro ⟨rfl, -⟩; rfl

theorem gcvScores_length (cands : List (Option ℚ)) :
    (gcvScores cands).length = cands.length := by
  simp [gcvScores]

theorem gcvScores_getD {cands : List (Option ℚ)} {p : ℕ} (hp : p < cands.length) :
    (gcvScores cands).getD p .nan = scoreOf (cands.getD p none) := by
  rw [gcvScores, List.getD_eq_getElem _ _ (by simpa using hp),
    List.getD_eq_getElem _ _ hp, List.getElem_map]

theorem getD_mem {α : Type} {l : List α} {p : ℕ} (d : α) (hp : p < l.length) :
    l.getD p d ∈ l := by
  rw [List.getD_eq_getElem _ _ hp]
  exact List.getElem_mem hp

theorem mem_getD {α : Type} {l : List α} {c : α} (d : α) (hc : c ∈ l) :
    ∃ p, p < l.length ∧ l.getD p d = c := by
  obtain ⟨p, hp, hpc⟩ := List.mem_iff_getElem.mp hc
  refine ⟨p, hp, ?_⟩
  rw [List.getD_eq_getElem _ _ hp]
  exact hpc

theorem gcvOutcome_of_none {cands : List (Option ℚ)}
    (hmin : nanargmin (gcvScores cands) = none) :
    gcvOutcome cands = .errAllNaN := by
  rw [gcvOutcome, hmin]

theorem gcvOutcome_of_some {cands : List (Option ℚ)} {i : ℕ}
    (hmin : nanargmin (gcvScores cands) = some i) :
    gcvOutcome cands =
      if (gcvScores cands).getD i .nan = .inf then .errBwOpt else .ok i := by
  rw [gcvOutcome, hmin]

theorem gcv_errAllNaN_iff (cands : List (Option ℚ)) :
    gcvOutcome cands = .errAllNaN ↔ ∀ c ∈ cands, c = some 0 := by
  constructor
  · intro h
    rcases hmin : nanargmin (gcvScores cands) with - | i
    · rw [nanargmin, Option.map_eq_none'] at hmin
      have hall := (nanargminAux_eq_none (gcvScores cands) 0).mp hmin
      intro c hc
      exact scoreOf_eq_nan.mp (hall (scoreOf c) (List.mem_map_of_mem scoreOf hc))
    · rw [gcvOutcome_of_some hmin] at h
      by_cases hi : (gcvScores cands).getD i .nan = .inf
      · rw [if_pos hi] at h
        exact absurd h (by simp)
      · rw [if_neg hi] at h
        exact absurd h (by simp)
  · intro h
    have hall : ∀ s ∈ gcvScores cands, s = .nan := by
      intro s hs
      obtain ⟨c, hc, rfl⟩ := List.mem_map.mp hs
      exact scoreOf_eq_nan.mpr (h c hc)
    have hnone : nanargmin (gcvScores cands) = none := by
      rw [nanargmin, Option.map_eq_none']
      exact (nanargminAux_eq_none _ 0).mpr hall
    exact gcvOutcome_of_none hnone

theorem gcv_errBwOpt_iff (cands : List (Option ℚ)) :
    gcvOutcome cands = .errBwOpt ↔
      ((∀ c ∈ cands, c = none ∨ c = some 0) ∧ none ∈ cands) := by
  constructor
  · intro h
    rcases hmin : nanargmin (gcvScores cands) with - | i
    · rw [gcvOutcome_of_none hmin] at h
      exact absurd h (by simp)
    · rw [gcvOutcome_of_some hmin] at h
      by_cases hi : (gcvScores cands).getD i .nan = .inf
      · -- the winner scored np.Inf: no finite score exists
        rw [nanargmin, Option.map_eq_some'] at hmin
        obtain ⟨⟨j, t⟩, haux, hfst⟩ := hmin
        simp only at hfst
        subst hfst
        obtain ⟨-, hlen, hget, hnan, hminp, -⟩ :=
          nanargminAux_spec (gcvScores cands) 0 j t haux
        rw [Nat.sub_zero] at hlen hget
        have hlenc : j < cands.length := by
          rwa [gcvScores_length] at hlen
        have htinf : t = .inf := by rw [← hget]; exact hi
        constructor
        · intro c hc
          obtain ⟨p, hp, hpc⟩ := mem_getD none hc
          rcases hcv : c with - | v
          · exact Or.inl rfl
          · by_cases hv : v = 0
            · exact Or.inr (by rw [hv])
            · exfalso
              have hps : (gcvScores cands).getD p .nan = .fin v := by
                rw [gcvScores_getD hp, hpc, hcv]
                exact scoreOf_eq_fin.mpr ⟨rfl, hv⟩
              have hblt := hminp p (by rwa [gcvScores_length]) (by rw [hps]; simp)
              rw [hps, htinf] at hblt
              simp [fsBlt] at hblt
        · have hcj : cands.getD j none = none := by
            have hsc := gcvScores_getD hlenc
            rw [hget, htinf] at hsc
            exact scoreOf_eq_inf.mp hsc.symm
          rw [← hcj]
          exact getD_mem none hlenc
      · rw [if_neg hi] at h
        exact absurd h (by simp)
  · rintro ⟨hall, hmem⟩
    -- an Inf entry exists and no finite entry exists
    have hnofin : ∀ s ∈ gcvScores cands, s = .nan ∨ s = .inf := by
      intro s hs
      obtain ⟨c, hc, rfl⟩ := List.mem_map.mp hs
      rcases hall c hc with rfl | rfl
      · exact Or.inr (scoreOf_eq_inf.mpr rfl)
      · exact Or.inl (scoreOf_eq_nan.mpr rfl)
    have hnotall : ¬ ∀ s ∈ gcvScores cands, s = .nan := by
      intro hcon
      have hno : scoreOf none = .nan :=
        hcon (scoreOf none) (List.mem_map_of_mem scoreOf hmem)
      simp [scoreOf] at hno
    rcases hmin : nanargmin (gcvScores cands) with - | i
    · rw [nanargmin, Option.map_eq_none'] at hmin
      exact absurd ((nanargminAux_eq_none _ 0).mp hmin) hnotall
    · have hsome := hmin
      rw [nanargmin, Option.map_eq_some'] at hsome
      obtain ⟨⟨j, t⟩, haux, hfst⟩ := hsome
      simp only at hfst
      subst hfst
      obtain ⟨-, hlen, hget, hnan, -, -⟩ :=
        nanargminAux_spec (gcvScores cands) 0 j t haux
      rw [Nat.sub_zero] at hlen hget
      have ht : t = .inf := by
        have hmemt : t ∈ gcvScores cands := by
          rw [← hget]
          exact getD_mem _ hlen
        rcases hnofin t hmemt with rfl | rfl
        · exact absurd rfl hnan
        · rfl
      rw [gcvOutcome_of_some hmin, if_pos (by rw [hget, ht])]

theorem gcv_ok_spec (cands : List (Option ℚ)) (i : ℕ)
    (h : gcvOutcome cands = .ok i) :
    i < cands.length ∧
    gcvSaved (gcvScores cands) = some i ∧
    ∃ v, cands.getD i none = some v ∧ v ≠ 0 ∧
      ∀ p w, p < cands.length → cands.getD p none = some w → w ≠ 0 → v ≤ w := by
  rcases hmin : nanargmin (gcvScores cands) with - | i'
  · rw [gcvOutcome_of_none hmin] at h
    exact absurd h (by simp)
  · rw [gcvOutcome_of_some hmin] at h
    by_cases hi : (gcvScores cands).getD i' .nan = .inf
    · rw [if_pos hi] at h
      exact absurd h (by simp)
    · rw [if_neg hi] at h
      have hii : i' = i := by
        simpa using h
      subst hii
      rw [nanargmin, Option.map_eq_some'] at hmin
      obtain ⟨⟨j, t⟩, haux, hfst⟩ := hmin
      simp only at hfst
      subst hfst
      obtain ⟨-, hlen, hget, hnan, hminp, hfirstp⟩ :=
        nanargminAux_spec (gcvScores cands) 0 j t haux
      rw [Nat.sub_zero] at hlen hget hfirstp
      have hlenc : j < cands.length := by rwa [gcvScores_length] at hlen
      -- the winning score is finite
      obtain ⟨v, hv⟩ : ∃ v, t = .fin v := by
        cases t with
        | fin v => exact ⟨v, rfl⟩
        | inf => exact absurd hget hi
        | nan => exact absurd rfl hnan
      subst hv
      have hcv : cands.getD j none = some v ∧ v ≠ 0 := by
        have hsc := gcvScores_getD hlenc
        rw [hget] at hsc
        exact scoreOf_eq_fin.mp hsc.symm
      have hminv : ∀ p w, p < cands.length → cands.getD p none = some w →
          w ≠ 0 → v ≤ w := by
        intro p w hp hpw hw0
        have hps : (gcvScores cands).getD p .nan = .fin w := by
          rw [gcvScores_getD hp, hpw]
          exact scoreOf_eq_fin.mpr ⟨rfl, hw0⟩
        have hblt := hminp p (by rwa [gcvScores_length]) (by rw [hps]; simp)
        rw [hps] at hblt
        simpa [fsBlt] using hblt
      refine ⟨hlenc, ?_, v, hcv.1, hcv.2, hminv⟩
      -- the saved index coincides with the nanargmin index
      obtain ⟨hsnone, hssome⟩ := gcvSavedAux_spec (gcvScores cands)
      rcases hsaved : gcvSavedAux 0 none (gcvScores cands) with - | ⟨j', m⟩
      · exfalso
        exact hsnone hsaved j hlen v hget
      · obtain ⟨hj'len, hgetj', hminf, hfirstf⟩ := hssome j' m hsaved
        have hjj : j' = j := by
          rcases lt_trichotomy j' j with hlt | heq | hgt
          · exfalso
            -- nanargmin-first says the winner is strictly below earlier
            -- non-NaN entries, contradicting minimality of the saved value
            have hb := hfirstp j' hlt (by rw [hgetj']; simp)
            rw [hgetj'] at hb
            simp only [fsBlt] at hb
            have hvm : v < m := by simpa using hb
            have hmv : m ≤ v := hminf j v hlen hget
            exact absurd hvm (not_lt.mpr hmv)
          · exact heq
          · exfalso
            have hmv : m < v := hfirstf j v hgt hget
            have hb := hminp j' hj'len (by rw [hgetj']; simp)
            rw [hgetj'] at hb
            simp only [fsBlt] at hb
            have : ¬ m < v := by simpa using hb
            exact this hmv
        rw [gcvSaved, hsaved, hjj]
        rfl

theorem gcv_ok_exists (cands : List (Option ℚ))
    (h : ∃ c ∈ cands, ∃ v, c = some v ∧ v ≠ 0) :
    ∃ i, gcvOutcome cands = .ok i := by
  obtain ⟨c, hc, v, rfl, hv⟩ := h
  obtain ⟨p, hp, hpc⟩ := mem_getD none hc
  have hps : (gcvScores cands).getD p .nan = .fin v := by
    rw [gcvScores_getD hp, hpc]
    exact scoreOf_eq_fin.mpr ⟨rfl, hv⟩
  rcases hmin : nanargmin (gcvScores cands) with - | i
  · exfalso
    rw [nanargmin, Option.map_eq_none'] at hmin
    have hall := (nanargminAux_eq_none (gcvScores cands) 0).mp hmin
    have hmemp : (gcvScores cands).getD p .nan ∈ gcvScores cands :=
      getD_mem _ (by rwa [gcvScores_length])
    rw [hps] at hmemp
    exact FScore.noConfusion (hall _ hmemp)
  · refine ⟨i, ?_⟩
    rw [gcvOutcome_of_some hmin]
    have hsome := hmin
    rw [nanargmin, Option.map_eq_some'] at hsome
    obtain ⟨⟨j, t⟩, haux, hfst⟩ := hsome
    simp only at hfst
    subst hfst
    obtain ⟨-, hlen, hget, hnan, hminp, -⟩ :=
      nanargminAux_spec (gcvScores cands) 0 j t haux
    rw [Nat.sub_zero] at hlen hget
    have hti : t ≠ .inf := by
      intro hti
      have hb := hminp p (by rwa [gcvScores_length]) (by rw [hps]; simp)
      rw [hps, hti] at hb
      simp [fsBlt] at hb
    rw [if_neg (by rw [hget]; exact hti)]

/-- C2 (amended): the ValueError that instructs the caller to pass --bw-opt
is raised iff every candidate is rejected or zero-scored AND at least one
was rejected (scored np.Inf); when every candidate is zero-scored (all
scores NaN), np.nanargmin raises a different ValueError before that check
is reached; otherwise the sweep returns the persisted weights of the first
candidate attaining the smallest valid score. -/
theorem C2_gcv_selection (cands : List (Option ℚ)) :
    (gcvOutcome cands = .errBwOpt ↔
      ((∀ c ∈ cands, c = none ∨ c = some 0) ∧ none ∈ cands)) ∧
    (gcvOutcome cands = .errAllNaN ↔ ∀ c ∈ cands, c = some 0) ∧
    (∀ i, gcvOutcome cands = .ok i →
      gcvSaved (gcvScores cands) = some i ∧
      ∃ v, cands.getD i none = some v ∧ v ≠ 0 ∧
        ∀ p w, p < cands.length → cands.getD p none = some w → w ≠ 0 → v ≤ w) :=
  ⟨gcv_errBwOpt_iff cands, gcv_errAllNaN_iff cands,
    fun i h => (gcv_ok_spec cands i h).2⟩

/-- C2 witness: a sweep with one rejected candidate and two valid scores
5 and 3 returns the weights of the third candidate (score 3). -/
theorem C2_gcv_selection_witness :
    gcvOutcome [none, some 5, some 3] = .ok 2 ∧
    gcvSaved (gcvScores [none, some 5, some 3]) = some 2 := by
  have hout : gcvOutcome [none, some (5 : ℚ), some 3] = .ok 2 := by decide
  exact ⟨hout, ((C2_gcv_selection [none, some 5, some 3]).2.2 2 hout).1⟩

/-- C2 counterexample: with a single candidate whose GCV score is exactly
zero every candidate is invalid, yet the code raises the All-NaN ValueError
inside np.nanargmin, not the error instructing the caller to supply an
explicit bandwidth. -/
theorem C2_counterexample :
    ([some (0 : ℚ)].all (fun c => c == some 0) = true) ∧
    gcvOutcome [some (0 : ℚ)] = .errAllNaN ∧
    gcvOutcome [some (0 : ℚ)] ≠ .errBwOpt := by
  exact ⟨by decide, by decide, by decide⟩

/-! ### GCV score of an accepted candidate (lines 76-92 and 114-127)

For an accepted bandwidth, `score = mean_diff / (1 - mean_diag + 1e-10)**2`
where `mean_diag = np.sum(W.diagonal()) / N` and `mean_diff` sums
`np.sum((images_ - images_ @ W.T)**2)` over the image_reader batches and
divides by the subject count n.  Images are a list of n rows of length N;
`W` is the N x N smoothing matrix as a list of rows. -/

/-- Inner product of two vectors, used for one entry of `images_ @ W.T`. -/
def dotProd (x w : List ℚ) : ℚ := (List.zipWith (fun a b => a * b) x w).sum

/-- Row `x` of the image matrix mapped through `W.T`: entry j is the inner
product of `x` with row j of `W`. -/
def matVecT (W : List (List ℚ)) (x : List ℚ) : List ℚ :=
  W.map (fun wrow => dotProd x wrow)

/-- Squared residual of one subject row: the row of
`(images_ - images_ @ W.T)**2` summed. -/
def rowResidualSq (W : List (List ℚ)) (x : List ℚ) : ℚ :=
  ((List.zipWith (fun a b => a - b) x (matVecT W x)).map (fun r => r ^ 2)).sum

/-- KernelSmooth._calculate_diff: `np.sum((images_ - images_ @ W.T)**2)`
over one batch. -/
def calculateDiff (W : List (List ℚ)) (batch : List (List ℚ)) : ℚ :=
  (batch.map (rowResidualSq W)).sum

/-- KernelSmooth._calculate_diff_parallel: the per-batch diffs over the
image_reader batches are summed and divided by n. -/
def calculateDiffParallel (W : List (List ℚ)) (images : List (List ℚ))
    (N : ℕ) : ℚ :=
  ((((imageReader images N).getD []).map (calculateDiff W)).sum) /
    (images.length : ℚ)

/-- Sum of the diagonal of `W` (`np.sum(sparse_sm_weight.diagonal())`). -/
def traceDiag (W : List (List ℚ)) : ℚ :=
  ((List.range W.length).map (fun i => (W.getD i []).getD i 0)).sum

/-- GCV score of an accepted candidate (line 80). -/
def gcvScoreValue (W : List (List ℚ)) (images : List (List ℚ)) (N : ℕ) : ℚ :=
  calculateDiffParallel W images N /
    (1 - (traceDiag W / (N : ℚ)) + 1 / 10 ^ 10) ^ 2

theorem calculateDiffParallel_eq (W : List (List ℚ)) (images : List (List ℚ))
    (N : ℕ) (hb : 0 < batchSize images.length N) :
    calculateDiffParallel W images N =
      ((images.map (rowResidualSq W)).sum) / (images.length : ℚ) := by
  have hreader : imageReader images N =
      some (chunkAux (batchSize images.length N) images.length images) := by
    simp [imageReader, Nat.pos_iff_ne_zero.mp hb]
  have hflat :
      (chunkAux (batchSize images.length N) images.length images).flatten =
        images := chunkAux_flatten _ hb _ _ le_rfl
  rw [calculateDiffParallel, hreader, Option.getD_some]
  congr 1
  conv_rhs => rw [← hflat]
  rw [List.map_flatten, List.sum_flatten, List.map_map]
  rfl

/-- C4: for an accepted bandwidth candidate the GCV score equals the mean
squared residual over the n retained subjects, the sum of the squared
entries of `image - image @ W.T`, divided by n, then divided by
`(1 - trace(W)/N + 1e-10)^2`. -/
theorem C4_gcv_score (W : List (List ℚ)) (images : List (List ℚ)) (N : ℕ)
    (hb : 0 < batchSize images.length N) :
    gcvScoreValue W images N =
      (((images.map (rowResidualSq W)).sum) / (images.length : ℚ)) /
        (1 - (traceDiag W / (N : ℚ)) + 1 / 10 ^ 10) ^ 2 := by
  rw [gcvScoreValue, calculateDiffParallel_eq W images N hb]

/-- C4 witness: two subjects on a 2-point grid with the identity weights. -/
theorem C4_gcv_score_witness :
    0 < batchSize 2 2 ∧
    gcvScoreValue [[1, 0], [0, 1]] [[1, 2], [3, 4]] 2 =
      ((([[1, 2], [3, 4]] : List (List ℚ)).map
          (rowResidualSq [[1, 0], [0, 1]])).sum / (2 : ℚ)) /
        (1 - (traceDiag [[1, 0], [0, 1]] / (2 : ℚ)) + 1 / 10 ^ 10) ^ 2 := by
  have hb : 0 < batchSize 2 2 := by norm_num [batchSize, memoryUse]
  have h := C4_gcv_score [[1, 0], [0, 1]] [[1, 2], [3, 4]] 2 hb
  exact ⟨hb, by simpa using h⟩

/-! ### LocalLinear.smoother density check (lines 181-205)

After assembling the sparse weight matrix, the smoother computes
`nonzero_weights = np.sum(sparse_sm_weight != 0, axis=0)` and returns None
when `np.mean(nonzero_weights) > self.N // 10` (Python floor division);
the mean of the column-wise nonzero counts equals nnz / N. -/

/-- Total number of nonzero entries of the weight matrix. -/
def nnz (W : List (List ℚ)) : ℕ :=
  (W.map (fun row => row.countP (fun w => decide (w ≠ 0)))).sum

/-- Result of LocalLinear.smoother given the assembled N x N weight matrix:
None (candidate rejected) when the mean nonzero count per grid point
exceeds N // 10. -/
def smootherResult (W : List (List ℚ)) : Option (List (List ℚ)) :=
  if ((W.length / 10 : ℕ) : ℚ) < (nnz W : ℚ) / (W.length : ℚ) then none
  else some W

/-- C6 (amended): the smoother returns no weights iff the mean number of
nonzero weights per grid point exceeds floor(N/10) (Python integer division
N // 10, not the real quotient N/10); in the gcv sweep a rejected candidate
scores np.Inf, and if any candidate attains a valid (finite nonzero) score
the sweep still terminates with a selected candidate rather than an
error. -/
theorem C6_smoother_rejection (W : List (List ℚ)) (cands : List (Option ℚ)) :
    (smootherResult W = none ↔
      (((W.length : ℚ) / 10 - ((W.length % 10 : ℕ) : ℚ) / 10) <
        (nnz W : ℚ) / (W.length : ℚ))) ∧
    scoreOf none = .inf ∧
    ((∃ c ∈ cands, ∃ v, c = some v ∧ v ≠ 0) →
      ∃ i, gcvOutcome cands = .ok i) := by
  refine ⟨?_, rfl, gcv_ok_exists cands⟩
  have hfloor : ((W.length / 10 : ℕ) : ℚ) =
      (W.length : ℚ) / 10 - ((W.length % 10 : ℕ) : ℚ) / 10 := by
    have hmod : (W.length / 10) * 10 + W.length % 10 = W.length := by omega
    have hcast : ((W.length / 10 : ℕ) : ℚ) * 10 + ((W.length % 10 : ℕ) : ℚ) =
        (W.length : ℚ) := by exact_mod_cast hmod
    linarith
  have hiff : (((W.length / 10 : ℕ) : ℚ) < (nnz W : ℚ) / (W.length : ℚ)) ↔
      (((W.length : ℚ) / 10 - ((W.length % 10 : ℕ) : ℚ) / 10) <
        (nnz W : ℚ) / (W.length : ℚ)) := by rw [hfloor]
  by_cases hc : ((W.length / 10 : ℕ) : ℚ) < (nnz W : ℚ) / (W.length : ℚ)
  · rw [smootherResult, if_pos hc]
    exact iff_of_true rfl (hiff.mp hc)
  · rw [smootherResult, if_neg hc]
    exact iff_of_false (by simp) (fun h => hc (hiff.mpr h))

/-- C6 counterexample: a 4 x 4 weight matrix with a single nonzero entry has
mean nonzero count 1/4; the code rejects it (1/4 > 4 // 10 = 0) although
1/4 does not exceed N/10 = 4/10, refuting the claim as stated. -/
theorem C6_counterexample :
    smootherResult [[1, 0, 0, 0], [0, 0, 0, 0], [0, 0, 0, 0], [0, 0, 0, 0]]
        = none ∧
    ¬ ((4 : ℚ) / 10 <
        (nnz [[1, 0, 0, 0], [0, 0, 0, 0], [0, 0, 0, 0], [0, 0, 0, 0]] : ℚ)
          / 4) := by
  constructor
  · have hn : nnz [[(1 : ℚ), 0, 0, 0], [0, 0, 0, 0], [0, 0, 0, 0],
        [0, 0, 0, 0]] = 1 := by decide
    rw [smootherResult, if_pos]
    rw [hn]
    norm_num
  · have hn : nnz [[(1 : ℚ), 0, 0, 0], [0, 0, 0, 0], [0, 0, 0, 0],
        [0, 0, 0, 0]] = 1 := by decide
    rw [hn]
    norm_num

/-- C6 witness: with one valid candidate of score 2 the sweep selects it. -/
theorem C6_smoother_rejection_witness :
    (∃ c ∈ [some (2 : ℚ)], ∃ v, c = some v ∧ v ≠ 0) ∧
    ∃ i, gcvOutcome [some (2 : ℚ)] = .ok i := by
  have hex : ∃ c ∈ [some (2 : ℚ)], ∃ v, c = some v ∧ v ≠ 0 :=
    ⟨some 2, by simp, 2, rfl, by norm_num⟩
  exact ⟨hex, (C6_smoother_rejection [[0]] [some 2]).2.2 hex⟩

/-! ### FPCA (src/heig/fpca.py lines 340-473)

`FPCA.__init__` sets `max_n_pc = min(n_sub, n_voxels)`,
`n_top = _get_n_top(n_ldrs, max_n_pc, compute_all)` and
`n_batches = n_sub // batch_size`; `do_fpca` then feeds
`range(0, n_batches * batch_size, batch_size)` mean-centered slices of the
smoothed images into the incremental PCA. -/

/-- FPCA._get_n_top (lines 359-395). -/
def getNTop (nLdrs : Option ℕ) (maxNPc : ℕ) (computeAll : Bool) : ℕ :=
  if computeAll then maxNPc
  else
    match nLdrs with
    | some k => if k > maxNPc then maxNPc else k
    | none => maxNPc / 5

/-- Arguments of check_input relevant to component selection. -/
structure Args where
  all_pc : Bool
  n_ldrs : Option ℕ

/-- check_input lines 567-569: `--all-pc` is disabled when `--n-ldrs` is
also supplied. -/
def checkInputAllPc (a : Args) : Args :=
  if a.all_pc = true ∧ a.n_ldrs ≠ none then { a with all_pc := false } else a

/-- Batches folded into the incremental decomposition by do_fpca (lines
455-468): start indices range(0, (n // b) * b, b), each slice of length b
is centered by subtracting the subject-wise mean. -/
def fpcaFoldedBatches (smImages : List (List ℚ)) (mean : List ℚ)
    (b : ℕ) : List (List (List ℚ)) :=
  (List.range (smImages.length / b)).map
    (fun j => ((smImages.drop (j * b)).take b).map
      (fun row => List.zipWith (fun a c => a - c) row mean))

theorem fpcaFoldedBatches_flatten (smImages : List (List ℚ)) (mean : List ℚ)
    (b : ℕ) :
    ∀ k, k * b ≤ smImages.length →
      ((List.range k).map
        (fun j => ((smImages.drop (j * b)).take b).map
          (fun row => List.zipWith (fun a c => a - c) row mean))).flatten =
      (smImages.take (k * b)).map
        (fun row => List.zipWith (fun a c => a - c) row mean) := by
  intro k
  induction k with
  | zero => simp
  | succ n ih =>
    intro hk
    rw [List.range_succ, List.map_append, List.flatten_append,
      ih (le_trans (by nlinarith) hk)]
    have hadd : (n + 1) * b = n * b + b := by ring
    rw [hadd, List.take_add, List.map_append]
    simp [List.take_drop]

/-- C8: do_fpca folds exactly n_subjects // batch_size full batches into the
incremental decomposition; each batch is the corresponding slice of the
smoothed images with the subject-wise mean subtracted row-wise, and the
n_subjects mod batch_size subjects beyond the last full batch boundary are
excluded (the folded rows are exactly the first (n // b) * b rows). -/
theorem C8_do_fpca_batches (smImages : List (List ℚ)) (mean : List ℚ)
    (b : ℕ) (hb : 0 < b) :
    (fpcaFoldedBatches smImages mean b).length = smImages.length / b ∧
    (∀ batch ∈ fpcaFoldedBatches smImages mean b, batch.length = b) ∧
    (fpcaFoldedBatches smImages mean b).flatten =
      (smImages.take ((smImages.length / b) * b)).map
        (fun row => List.zipWith (fun a c => a - c) row mean) := by
  refine ⟨by simp [fpcaFoldedBatches], ?_, ?_⟩
  · intro batch hbatch
    rw [fpcaFoldedBatches, List.mem_map] at hbatch
    obtain ⟨j, hj, rfl⟩ := hbatch
    rw [List.mem_range] at hj
    rw [List.length_map, List.length_take, List.length_drop]
    have hjb : (j + 1) * b ≤ smImages.length := by
      calc (j + 1) * b ≤ (smImages.length / b) * b :=
            Nat.mul_le_mul_right b hj
        _ ≤ smImages.length := Nat.div_mul_le_self _ _
    have : j * b + b ≤ smImages.length := by nlinarith
    omega
  · exact fpcaFoldedBatches_flatten smImages mean b _
      (Nat.div_mul_le_self _ _)

/-- C8 witness: five subjects with batch size 2 give two full batches
covering the first four subjects, centered by the mean. -/
theorem C8_do_fpca_batches_witness :
    0 < 2 ∧
    ((fpcaFoldedBatches [[1], [2], [3], [4], [5]] [1] 2).length = 5 / 2 ∧
    (∀ batch ∈ fpcaFoldedBatches [[1], [2], [3], [4], [5]] [1] 2,
      batch.length = 2) ∧
    (fpcaFoldedBatches [[1], [2], [3], [4], [5]] [1] 2).flatten =
      (([[1], [2], [3], [4], [5]] : List (List ℚ)).take ((5 / 2) * 2)).map
        (fun row => List.zipWith (fun a c => a - c) row [1])) := by
  exact ⟨by norm_num,
    C8_do_fpca_batches [[1], [2], [3], [4], [5]] [1] 2 (by norm_num)⟩

/-- C10: when both --all-pc and --n-ldrs are supplied, check_input disables
the compute-all flag and keeps n_ldrs, so FPCA computes
min(n_ldrs, max_n_pc) components with max_n_pc = min(n_sub, n_voxels). -/
theorem C10_all_pc_precedence (a : Args) (k : ℕ)
    (hall : a.all_pc = true) (hldrs : a.n_ldrs = some k) :
    (checkInputAllPc a).all_pc = false ∧
    (checkInputAllPc a).n_ldrs = some k ∧
    ∀ nSub nVoxels : ℕ,
      getNTop (checkInputAllPc a).n_ldrs (min nSub nVoxels)
          (checkInputAllPc a).all_pc =
        min k (min nSub nVoxels) := by
  have hcond : a.all_pc = true ∧ a.n_ldrs ≠ none := by
    refine ⟨hall, ?_⟩
    rw [hldrs]
    exact Option.noConfusion
  rw [checkInputAllPc, if_pos hcond]
  refine ⟨rfl, hldrs, ?_⟩
  intro nSub nVoxels
  simp only [hldrs, getNTop, Bool.false_eq_true, if_false]
  by_cases hk : k > min nSub nVoxels
  · rw [if_pos hk, min_eq_right (le_of_lt hk)]
  · rw [if_neg hk, min_eq_left (not_lt.mp hk)]

/-- C10 witness: all_pc together with n_ldrs = 3 on 10 subjects and 7
voxels yields 3 components. -/
theorem C10_all_pc_precedence_witness :
    (Args.mk true (some 3)).all_pc = true ∧
    ((checkInputAllPc (Args.mk true (some 3))).all_pc = false ∧
      (checkInputAllPc (Args.mk true (some 3))).n_ldrs = some 3 ∧
      ∀ nSub nVoxels : ℕ,
        getNTop (checkInputAllPc (Args.mk true (some 3))).n_ldrs
            (min nSub nVoxels)
            (checkInputAllPc (Args.mk true (some 3))).all_pc =
          min 3 (min nSub nVoxels)) :=
  ⟨rfl, C10_all_pc_precedence (Args.mk true (some 3)) 3 rfl rfl⟩

/-! ### EigenValues (src/heig/fpca.py lines 476-554)

`_print_prop_ldr` computes `prop_var = np.cumsum(v) / np.sum(v)` over the
imputed eigenvalues and reports `np.sum(prop_var <= prop) + 1` for each
proportion in [0.7, 0.75, 0.8, 0.85, 0.9, 0.95]; `_eff_num` normalizes by
the leading eigenvalue and returns `sum(norm)^2 / sum(norm^2)`. -/

/-- Sum of the first m values (prefix of np.cumsum). -/
def partialSum (values : List ℚ) (m : ℕ) : ℚ := (values.take m).sum

/-- np.cumsum of the imputed eigenvalues. -/
def cumsum (values : List ℚ) : List ℚ :=
  (List.range values.length).map (fun i => partialSum values (i + 1))

/-- prop_var = np.cumsum(values) / np.sum(values) (line 531). -/
def propVar (values : List ℚ) : List ℚ :=
  (cumsum values).map (fun c => c / values.sum)

/-- Component count reported for proportion p:
`np.sum(prop_var <= prop) + 1` (line 534). -/
def propLdr (values : List ℚ) (p : ℚ) : ℕ :=
  (propVar values).countP (fun q => decide (q ≤ p)) + 1

/-- The proportions of the variance-coverage table (line 533). -/
def tableProps : List ℚ := [7 / 10, 3 / 4, 4 / 5, 17 / 20, 9 / 10, 19 / 20]

/-- EigenValues._eff_num (lines 516-524). -/
def effNum (values : List ℚ) : ℚ :=
  ((values.map (fun v => v / values.headI)).sum) ^ 2 /
    ((values.map (fun v => v / values.headI)).map (fun v => v ^ 2)).sum

theorem partialSum_lt (values : List ℚ) (hpos : ∀ v ∈ values, 0 < v)
    {m m' : ℕ} (hm : m < m') (hm' : m' ≤ values.length) :
    partialSum values m < partialSum values m' := by
  have hsplit : values.take m' = values.take m ++ (values.drop m).take (m' - m) := by
    rw [← List.take_add]
    congr 1
    omega
  rw [partialSum, partialSum, hsplit, List.sum_append]
  have hlen : ((values.drop m).take (m' - m)).length = m' - m := by
    rw [List.length_take, List.length_drop]
    omega
  have hne : (values.drop m).take (m' - m) ≠ [] := by
    intro hcon
    rw [hcon] at hlen
    simp at hlen
    omega
  have hposs : ∀ v ∈ (values.drop m).take (m' - m), 0 < v := by
    intro v hv
    exact hpos v (List.mem_of_mem_drop (List.mem_of_mem_take hv))
  have := List.sum_pos _ hposs hne
  linarith

theorem partialSum_mono (values : List ℚ) (hpos : ∀ v ∈ values, 0 < v)
    {m m' : ℕ} (hm : m ≤ m') (hm' : m' ≤ values.length) :
    partialSum values m ≤ partialSum values m' := by
  rcases Nat.lt_or_ge m m' with h | h
  · exact le_of_lt (partialSum_lt values hpos h hm')
  · have : m = m' := by omega
    rw [this]

theorem cumsum_length (values : List ℚ) :
    (cumsum values).length = values.length := by
  simp [cumsum]

theorem cumsum_getD (values : List ℚ) {i : ℕ} (hi : i < values.length) :
    (cumsum values).getD i 0 = partialSum values (i + 1) := by
  rw [cumsum, List.getD_eq_getElem _ _ (by simpa using hi),
    List.getElem_map, List.getElem_range]

theorem countP_split (p : ℚ → Bool) (l : List ℚ) (i : ℕ) :
    l.countP p = (l.take i).countP p + (l.drop i).countP p := by
  conv_lhs => rw [← List.take_append_drop i l]
  exact List.countP_append _ _ _

/-- On a list whose entries are strictly increasing in position, the count
of entries at most t is a lower set of positions: entries below the count
are at most t and the entry at the count exceeds t. -/
theorem countP_sorted_spec (l : List ℚ) (t : ℚ)
    (hsort : ∀ i j, i < j → j < l.length → l.getD i 0 < l.getD j 0) :
    (∀ i, i < l.countP (fun x => decide (x ≤ t)) → l.getD i 0 ≤ t) ∧
    (l.countP (fun x => decide (x ≤ t)) < l.length →
      t < l.getD (l.countP (fun x => decide (x ≤ t))) 0) := by
  set c := l.countP (fun x => decide (x ≤ t)) with hc
  constructor
  · intro i hi
    by_contra hgt
    push_neg at hgt
    have hilen : i < l.length := by
      have := List.countP_le_length (l := l) (fun x => decide (x ≤ t))
      omega
    -- every entry from position i on exceeds t
    have hdrop : (l.drop i).countP (fun x => decide (x ≤ t)) = 0 := by
      rw [List.countP_eq_zero]
      intro a ha
      obtain ⟨q, hq, hqa⟩ := List.mem_iff_getElem.mp ha
      have hql : (l.drop i)[q] = l.getD (i + q) 0 := by
        rw [List.getElem_drop, List.getD_eq_getElem _ _ (by
          rw [List.length_drop] at hq
          omega)]
      have hgt' : t < l.getD (i + q) 0 := by
        rcases Nat.eq_zero_or_pos q with rfl | hq0
        · simpa using hgt
        · exact lt_trans hgt (hsort i (i + q) (by omega) (by
            rw [List.length_drop] at hq
            omega))
      rw [← hqa, hql]
      simpa using not_le.mpr hgt'
    have hcle : c ≤ i := by
      rw [hc, countP_split _ l i, hdrop]
      have := List.length_take i l
      have := List.countP_le_length (l := l.take i) (fun x => decide (x ≤ t))
      omega
    omega
  · intro hclen
    by_contra hle
    push_neg at hle
    -- the first c+1 entries are all at most t
    have htake : (l.take (c + 1)).countP (fun x => decide (x ≤ t)) = c + 1 := by
      rw [List.countP_eq_length.mpr, List.length_take]
      · omega
      · intro a ha
        obtain ⟨q, hq, hqa⟩ := List.mem_iff_getElem.mp ha
        have hqlen : q < c + 1 := by
          rw [List.length_take] at hq
          omega
        have hql : (l.take (c + 1))[q] = l.getD q 0 := by
          rw [List.getElem_take, List.getD_eq_getElem _ _ (by
            rw [List.length_take] at hq
            omega)]
        have : l.getD q 0 ≤ t := by
          rcases Nat.lt_or_ge q c with hqc | hqc
          · exact le_of_lt (lt_of_lt_of_le (hsort q c hqc hclen) hle)
          · have : q = c := by omega
            rw [this]
            exact hle
        rw [← hqa, hql]
        simpa using this
    have : c + 1 ≤ c := by
      conv_rhs => rw [hc]
      rw [countP_split _ l (c + 1)]
      omega
    omega

theorem tableProps_bounds {p : ℚ} (hp : p ∈ tableProps) : 0 ≤ p ∧ p < 1 := by
  simp only [tableProps, List.mem_cons, List.not_mem_nil, or_false] at hp
  rcases hp with rfl | rfl | rfl | rfl | rfl | rfl <;> norm_num

theorem propLdr_count_eq (values : List ℚ) (p : ℚ) (hS : 0 < values.sum) :
    (propVar values).countP (fun q => decide (q ≤ p)) =
      (cumsum values).countP (fun c => decide (c ≤ p * values.sum)) := by
  rw [propVar, List.countP_map]
  refine le_antisymm (List.countP_mono_left ?_) (List.countP_mono_left ?_)
  · intro a ha hpa
    simp only [Function.comp] at hpa ⊢
    rw [decide_eq_true_eq] at hpa ⊢
    rw [div_le_iff₀ hS] at hpa
    linarith
  · intro a ha hpa
    simp only [Function.comp] at hpa ⊢
    rw [decide_eq_true_eq] at hpa ⊢
    rw [div_le_iff₀ hS]
    linarith

/-- C3 (amended): for a spectrum of positive eigenvalues and a table target
p, the reported count is the least m such that the sum of the first m
eigenvalues STRICTLY exceeds p times the total (at an exact tie the code
counts one extra component, so "at least" in the claim must read
"strictly greater"). -/
theorem C3_prop_ldr_least (values : List ℚ) (p : ℚ)
    (hne : values ≠ []) (hpos : ∀ v ∈ values, 0 < v) (hp : p ∈ tableProps) :
    p * values.sum < partialSum values (propLdr values p) ∧
    ∀ m, m < propLdr values p → partialSum values m ≤ p * values.sum := by
  obtain ⟨hp0, hp1⟩ := tableProps_bounds hp
  have hS : 0 < values.sum := List.sum_pos _ hpos hne
  have hsort : ∀ i j, i < j → j < (cumsum values).length →
      (cumsum values).getD i 0 < (cumsum values).getD j 0 := by
    intro i j hij hj
    rw [cumsum_length] at hj
    rw [cumsum_getD values (by omega), cumsum_getD values hj]
    exact partialSum_lt values hpos (by omega) (by omega)
  obtain ⟨hbelow, habove⟩ := countP_sorted_spec (cumsum values)
    (p * values.sum) hsort
  set c := (cumsum values).countP
    (fun x => decide (x ≤ p * values.sum)) with hcdef
  have hcount : propLdr values p = c + 1 := by
    rw [propLdr, propLdr_count_eq values p hS]
  have hclen : c < values.length := by
    rcases Nat.lt_or_ge c values.length with h | h
    · exact h
    · exfalso
      have hceq : c = values.length := by
        have := List.countP_le_length
          (l := cumsum values) (fun x => decide (x ≤ p * values.sum))
        rw [cumsum_length] at this
        omega
      -- then the last entry, the full sum, would satisfy sum <= p * sum
      have hlenpos : 0 < values.length := List.length_pos.mpr hne
      have hlast : (cumsum values).getD (values.length - 1) 0 ≤
          p * values.sum := by
        have hmem := hbelow (values.length - 1) (by omega)
        exact hmem
      rw [cumsum_getD values (by omega)] at hlast
      have hfull : partialSum values ((values.length - 1) + 1) = values.sum := by
        rw [partialSum]
        congr 1
        rw [List.take_of_length_le (by omega)]
      rw [hfull] at hlast
      nlinarith
  constructor
  · rw [hcount]
    have := habove (by rw [cumsum_length]; exact hclen)
    rwa [cumsum_getD values hclen] at this
  · intro m hm
    rw [hcount] at hm
    rcases Nat.eq_zero_or_pos m with rfl | hm0
    · rw [partialSum]
      simp only [List.take_zero, List.sum_nil]
      positivity
    · obtain ⟨i, rfl⟩ : ∃ i, m = i + 1 := ⟨m - 1, by omega⟩
      have := hbelow i (by omega)
      rwa [cumsum_getD values (by omega)] at this

/-- C3 witness: the spectrum [4, 2, 1] at p = 0.7 reports 2 components,
the least count whose sum 6 exceeds 0.7 * 7 = 4.9. -/
theorem C3_prop_ldr_least_witness :
    ([(4 : ℚ), 2, 1] ≠ []) ∧
    ((7 : ℚ) / 10 * ([(4 : ℚ), 2, 1].sum) <
        partialSum [4, 2, 1] (propLdr [4, 2, 1] (7 / 10)) ∧
      ∀ m, m < propLdr [4, 2, 1] (7 / 10) →
        partialSum [4, 2, 1] m ≤ (7 : ℚ) / 10 * ([(4 : ℚ), 2, 1].sum)) := by
  refine ⟨by simp, C3_prop_ldr_least [4, 2, 1] (7 / 10) (by simp) ?_ ?_⟩
  · intro v hv
    simp only [List.mem_cons, List.not_mem_nil, or_false] at hv
    rcases hv with rfl | rfl | rfl <;> norm_num
  · simp [tableProps]

/-- C3 counterexample: for the spectrum [7, 3] and target p = 0.7 the code
reports 2 components although the first component alone already attains
at least 0.7 of the total (exactly 7 = 0.7 * 10), so the reported count is
not the minimum m with partial sum at least p times the total. -/
theorem C3_counterexample :
    propLdr [7, 3] (7 / 10) = 2 ∧
    (7 : ℚ) / 10 * ([(7 : ℚ), 3].sum) ≤ partialSum [7, 3] 1 ∧
    (1 : ℕ) < 2 := by
  refine ⟨?_, by norm_num [partialSum], by norm_num⟩
  have h1 : cumsum [(7 : ℚ), 3] = [7, 10] := by
    norm_num [cumsum, partialSum, List.range_succ]
  have h2 : propVar [(7 : ℚ), 3] = [7 / 10, 1] := by
    norm_num [propVar, h1]
  rw [propLdr, h2]
  norm_num [List.countP_cons]

/-- C9: for positive eigenvalues sorted descending, the variance-coverage
table is monotone: a larger proportion target never reports fewer
components. -/
theorem C9_prop_ldr_monotone (values : List ℚ) (p1 p2 : ℚ)
    (hne : values ≠ []) (hpos : ∀ v ∈ values, 0 < v)
    (hsort : values.Sorted (· ≥ ·)) (hp1 : p1 ∈ tableProps)
    (hp2 : p2 ∈ tableProps) (h12 : p1 < p2) :
    propLdr values p1 ≤ propLdr values p2 := by
  rw [propLdr, propLdr]
  have hmono := List.countP_mono_left (l := propVar values)
    (p := fun q => decide (q ≤ p1)) (q := fun q => decide (q ≤ p2)) ?_
  · omega
  · intro a ha hpa
    rw [decide_eq_true_eq] at hpa ⊢
    linarith

/-- C9 witness: spectrum [4, 1], targets 0.7 and 0.75. -/
theorem C9_prop_ldr_monotone_witness :
    (7 : ℚ) / 10 < 3 / 4 ∧
    propLdr [4, 1] (7 / 10) ≤ propLdr [4, 1] (3 / 4) := by
  refine ⟨by norm_num, C9_prop_ldr_monotone [4, 1] (7 / 10) (3 / 4)
    (by simp) ?_ ?_ (by simp [tableProps]) (by simp [tableProps])
    (by norm_num)⟩
  · intro v hv
    simp only [List.mem_cons, List.not_mem_nil, or_false] at hv
    rcases hv with rfl | rfl <;> norm_num
  · decide

/-- C7: the effective number of independent tests is
(sum of normalized eigenvalues)^2 / (sum of squared normalized
eigenvalues), normalization dividing by the leading eigenvalue; on a flat
positive spectrum of length k it equals k, and on a spectrum with one
positive eigenvalue and all others zero it equals 1. -/
theorem C7_eff_num (values : List ℚ) (c : ℚ) (k m : ℕ)
    (hc : 0 < c) (hk : 0 < k) :
    effNum values =
      ((values.map (fun v => v / values.headI)).sum) ^ 2 /
        (values.map (fun v => (v / values.headI) ^ 2)).sum ∧
    effNum (List.replicate k c) = (k : ℚ) ∧
    effNum (c :: List.replicate m 0) = 1 := by
  refine ⟨?_, ?_, ?_⟩
  · rw [effNum, List.map_map]
    rfl
  · have hhead : (List.replicate k c).headI = c := by
      obtain ⟨n, rfl⟩ : ∃ n, k = n + 1 := ⟨k - 1, by omega⟩
      rw [List.replicate_succ, List.headI_cons]
    rw [effNum, hhead]
    have hnorm : (List.replicate k c).map (fun v => v / c) =
        List.replicate k 1 := by
      rw [List.map_replicate, div_self (ne_of_gt hc)]
    rw [hnorm, List.map_replicate, one_pow]
    simp only [List.sum_replicate, nsmul_eq_mul, mul_one]
    have hkq : (k : ℚ) ≠ 0 := Nat.cast_ne_zero.mpr (by omega)
    rw [sq, mul_div_assoc, div_self hkq, mul_one]
  · have hhead : (c :: List.replicate m 0).headI = c := rfl
    rw [effNum, hhead]
    have hnorm : (c :: List.replicate m 0).map (fun v => v / c) =
        1 :: List.replicate m 0 := by
      rw [List.map_cons, List.map_replicate, div_self (ne_of_gt hc),
        zero_div]
    rw [hnorm]
    simp [List.sum_replicate]

/-- C7 witness: flat spectrum of three 2s and a spike with two zeros. -/
theorem C7_eff_num_witness :
    (0 : ℚ) < 2 ∧
    (effNum (List.replicate 3 (2 : ℚ)) = (3 : ℚ) ∧
      effNum ((2 : ℚ) :: List.replicate 2 0) = 1) := by
  have h := C7_eff_num [(5 : ℚ), 5, 5] 2 3 2 (by norm_num) (by norm_num)
  exact ⟨by norm_num, h.2.1, h.2.2⟩

/-! ### EigenValues._bspline and run (lines 498-514 and 580-603)

`_bspline` fits make_interp_spline(x_train, log(values), k=1) on
x_train = arange(n_values) and predicts at x_pred =
arange(n_values, max_n_pc); a degree-1 B-spline evaluated beyond its last
knot extrapolates linearly through the last two training points, and every
prediction rank lies in that region.  `run` constructs
`EigenValues(values, bases.shape[0])` where `bases` has shape
(n_voxels, n_top), so max_n_pc is the grid-point count n_voxels. -/

/-- Linear extrapolation through the last two training points, the value a
degree-1 B-spline takes beyond its last knot. -/
noncomputable def splineExtrap (y : List ℝ) (x : ℝ) : ℝ :=
  y.getD (y.length - 1) 0 +
    (x - ((y.length - 1 : ℕ) : ℝ)) *
      (y.getD (y.length - 1) 0 - y.getD (y.length - 2) 0)

/-- EigenValues._bspline: the observed eigenvalues concatenated with the
exponentiated spline predictions of the log-eigenvalues at ranks
arange(n_values, max_n_pc). -/
noncomputable def bsplineImputed (values : List ℝ) (maxNPc : ℕ) : List ℝ :=
  values ++ (List.range (maxNPc - values.length)).map
    (fun j => Real.exp (splineExtrap (values.map Real.log)
      ((values.length + j : ℕ) : ℝ)))

/-- Spectrum serialized by run to the eigenvalues output file: the
extrapolation target passed to EigenValues is bases.shape[0] = n_voxels. -/
noncomputable def runSerializedSpectrum (values : List ℝ) (nVoxels : ℕ) :
    List ℝ :=
  bsplineImputed values nVoxels

theorem getNTop_le (nLdrs : Option ℕ) (maxNPc : ℕ) (computeAll : Bool) :
    getNTop nLdrs maxNPc computeAll ≤ maxNPc := by
  cases nLdrs with
  | none =>
    simp only [getNTop]
    by_cases hca : computeAll = true
    · rw [if_pos hca]
    · rw [if_neg hca]
      exact Nat.div_le_self _ _
  | some k =>
    simp only [getNTop]
    by_cases hca : computeAll = true
    · rw [if_pos hca]
    · rw [if_neg hca]
      by_cases hk : k > maxNPc
      · rw [if_pos hk]
      · rw [if_neg hk]
        omega

theorem bsplineImputed_length (values : List ℝ) (maxNPc : ℕ) :
    (bsplineImputed values maxNPc).length =
      max values.length maxNPc := by
  rw [bsplineImputed, List.length_append, List.length_map,
    List.length_range]
  omega

/-- C1 (amended): the serialized ExtrapolatedSpectrum has length equal to
the grid-point count n_voxels (the value bases.shape[0] that run passes to
EigenValues), not min(subject-count, grid-point-count); the two agree only
when the subject count is at least the grid-point count. -/
theorem C1_spectrum_length (nSub nVoxels : ℕ) (computeAll : Bool)
    (nLdrs : Option ℕ) (values : List ℝ)
    (hlen : values.length = getNTop nLdrs (min nSub nVoxels) computeAll) :
    (runSerializedSpectrum values nVoxels).length = nVoxels := by
  have hle : values.length ≤ nVoxels := by
    rw [hlen]
    exact le_trans (getNTop_le nLdrs (min nSub nVoxels) computeAll)
      (min_le_right _ _)
  rw [runSerializedSpectrum, bsplineImputed_length]
  omega

/-- C1 witness: 5 subjects, 4 grid points, 2 requested components. -/
theorem C1_spectrum_length_witness :
    ([(3 : ℝ), 2]).length = getNTop (some 2) (min 5 4) false ∧
    (runSerializedSpectrum [(3 : ℝ), 2] 4).length = 4 := by
  have hlen : ([(3 : ℝ), 2]).length = getNTop (some 2) (min 5 4) false := by
    norm_num [getNTop]
  exact ⟨hlen, C1_spectrum_length 5 4 false (some 2) [(3 : ℝ), 2] hlen⟩

/-- C1 counterexample: with 2 subjects, 3 grid points and n_ldrs = 2 the
run serializes a spectrum of length 3 (the grid-point count), whereas
min(subject-count, grid-point-count) = 2. -/
theorem C1_counterexample :
    ([(2 : ℝ), 1]).length = getNTop (some 2) (min 2 3) false ∧
    (runSerializedSpectrum [(2 : ℝ), 1] 3).length = 3 ∧
    (runSerializedSpectrum [(2 : ℝ), 1] 3).length ≠ min 2 3 := by
  have h3 : (runSerializedSpectrum [(2 : ℝ), 1] 3).length = 3 := by
    rw [runSerializedSpectrum, bsplineImputed_length]
    norm_num
  refine ⟨by norm_num [getNTop], h3, ?_⟩
  rw [h3]
  norm_num

end Heig
